import Mathlib

/-!
Verification of the fastrand library (pseudo-random number generation).

The underlying word source (`u32`/`u64` in the Go sources, selected by build
tag) is modelled as an explicit supply of raw draws: either a list `ds : List Nat`
consumed left to right (for the rejection-sampling loops, which consume an
unbounded number of words), or a stream `s : Nat → Nat` indexed by draw counter
(for `Fill`, which consumes a statically bounded number of words).  A raw draw
is an arbitrary natural number; `u32`/`u64` truncate it to the machine width,
exactly as the Go functions return values of type `uint32`/`uint64`.

Machine integers are embedded as `Nat` with explicit reductions mod `2^32` /
`2^64`; the signed bounds passed to `Int31n`/`Int63n` are embedded as `Int`
because the sign check `n <= 0` is part of the code.  A Go `panic` is embedded
as `Except.error`; a rejection loop that exhausts its finite draw supply is
`Option.none` (the Go loop would just keep drawing).
-/

namespace Fastrand

/-- `u32 d` is the `uint32` word obtained from raw draw `d` (build-selected
`func u32() uint32`). -/
def u32 (d : Nat) : Nat := d % 2 ^ 32

/-- `u64 d` is the `uint64` word obtained from raw draw `d` (build-selected
`func u64() uint64`). -/
def u64 (d : Nat) : Nat := d % 2 ^ 64

/-- `maxUint32 = (1 << 32) - 1` from the source. -/
def maxUint32 : Nat := 2 ^ 32 - 1

/-- `maxUint64 = (1 << 64) - 1` from the source. -/
def maxUint64 : Nat := 2 ^ 64 - 1

/-- `maxInt32 = maxUint32 >> 1` from the source. -/
def maxInt32 : Nat := maxUint32 >>> 1

/-- `maxInt64 = maxUint64 >> 1` from the source. -/
def maxInt64 : Nat := maxUint64 >>> 1

/-- `Int31() = int32(u32() >> 1)`: the non-negative value produced from one
raw draw `d`. -/
def Int31 (d : Nat) : Nat := u32 d >>> 1

/-- `Int63() = int64(u64() >> 1)`: the non-negative value produced from one
raw draw `d`. -/
def Int63 (d : Nat) : Nat := u64 d >>> 1

/-- The rejection loop `v := f(); for v >= max { v = f() }` shared by all four
bounded samplers: scan the draw supply for the first word whose sampled value
is `< maxv`, returning that value together with the unconsumed draws. -/
def drawLoop (f : Nat → Nat) (maxv : Nat) : List Nat → Option (Nat × List Nat)
  | [] => none
  | d :: ds => if f d < maxv then some (f d, ds) else drawLoop f maxv ds

/-- `Int31n` from `fastrand.go`: panic (`Except.error`) if `n <= 0`; mask path
when `n` is a power of two (one draw); otherwise rejection sampling below
`maxInt32 - maxInt32 % n`, returning the accepted value mod `n`. -/
def Int31n (n : Int) (ds : List Nat) : Except String (Option (Nat × List Nat)) :=
  if n ≤ 0 then .error "fastrand.Int31n: invalid argument"
  else
    let nn := n.toNat
    if nn &&& (nn - 1) = 0 then
      match ds with
      | [] => .ok none
      | d :: rest => .ok (some (Int31 d &&& (nn - 1), rest))
    else
      .ok ((drawLoop Int31 (maxInt32 - maxInt32 % nn) ds).map fun vr => (vr.1 % nn, vr.2))

/-- `Int63n` from `fastrand.go`: same shape as `Int31n` at 64-bit width. -/
def Int63n (n : Int) (ds : List Nat) : Except String (Option (Nat × List Nat)) :=
  if n ≤ 0 then .error "fastrand.Int63n: invalid argument"
  else
    let nn := n.toNat
    if nn &&& (nn - 1) = 0 then
      match ds with
      | [] => .ok none
      | d :: rest => .ok (some (Int63 d &&& (nn - 1), rest))
    else
      .ok ((drawLoop Int63 (maxInt64 - maxInt64 % nn) ds).map fun vr => (vr.1 % nn, vr.2))

/-- Wrapping `n - 1` at `uint32` width: for `n = 0` this is `2^32 - 1`
(all ones), matching Go unsigned subtraction. -/
def u32sub1 (n : Nat) : Nat := (n + 2 ^ 32 - 1) % 2 ^ 32

/-- Wrapping `n - 1` at `uint64` width. -/
def u64sub1 (n : Nat) : Nat := (n + 2 ^ 64 - 1) % 2 ^ 64

/-- `Uint64nUint32n` from `fastrand.go` (the 32-bit unsigned bounded sampler);
`n` is a `uint32`, i.e. `n < 2^32`.  No bound check is performed. -/
def Uint64nUint32n (n : Nat) (ds : List Nat) : Option (Nat × List Nat) :=
  if n &&& u32sub1 n = 0 then
    match ds with
    | [] => none
    | d :: rest => some (u32 d &&& u32sub1 n, rest)
  else
    (drawLoop u32 (maxUint32 - maxUint32 % n) ds).map fun vr => (vr.1 % n, vr.2)

/-- `Uint64n` from `fastrand.go` (the 64-bit unsigned bounded sampler);
`n` is a `uint64`, i.e. `n < 2^64`.  No bound check is performed. -/
def Uint64n (n : Nat) (ds : List Nat) : Option (Nat × List Nat) :=
  if n &&& u64sub1 n = 0 then
    match ds with
    | [] => none
    | d :: rest => some (u64 d &&& u64sub1 n, rest)
  else
    (drawLoop u64 (maxUint64 - maxUint64 % n) ds).map fun vr => (vr.1 % n, vr.2)

/-! ### Power-of-two helper lemmas -/

/-- A power of two satisfies the mask test `n & (n-1) == 0` of the source. -/
theorem two_pow_land_sub_one (j : Nat) : 2 ^ j &&& (2 ^ j - 1) = 0 := by
  rw [Nat.two_pow_and, Nat.testBit_two_pow_sub_one]
  simp

/-- Conversely, if a positive `n` fails the mask test then `n` is not a power
of two, hence divides no power of two. -/
theorem not_dvd_two_pow_of_land_ne (n : Nat) (hnp : n &&& (n - 1) ≠ 0) (k : Nat) :
    ¬ n ∣ 2 ^ k := by
  intro hdvd
  rcases (Nat.dvd_prime_pow Nat.prime_two).mp hdvd with ⟨j, _, rfl⟩
  exact hnp (two_pow_land_sub_one j)

/-- Sampled values are in range: `Int31 d < 2^31`. -/
theorem Int31_lt (d : Nat) : Int31 d < 2 ^ 31 := by
  have h : d % 2 ^ 32 < 2 ^ 32 := Nat.mod_lt _ (by norm_num)
  simp only [Int31, u32, Nat.shiftRight_eq_div_pow]
  omega

/-- Sampled values are in range: `Int63 d < 2^63`. -/
theorem Int63_lt (d : Nat) : Int63 d < 2 ^ 63 := by
  have h : d % 2 ^ 64 < 2 ^ 64 := Nat.mod_lt _ (by norm_num)
  simp only [Int63, u64, Nat.shiftRight_eq_div_pow]
  omega

/-! ### Rejection-loop characterization and counting -/

/-- `v` is the first accepted value of the rejection loop on draw supply `ds`:
some prefix of draws is rejected (each sampling to a value `≥ maxv`), then one
draw samples to `v < maxv`, and `rest` is the unconsumed suffix. -/
def IsFirstAccepted (f : Nat → Nat) (maxv : Nat) (ds : List Nat) (v : Nat)
    (rest : List Nat) : Prop :=
  ∃ pre d, ds = pre ++ d :: rest ∧ (∀ x ∈ pre, maxv ≤ f x) ∧ f d < maxv ∧ v = f d

/-- The rejection loop returns exactly the first accepted value. -/
theorem drawLoop_eq_some (f : Nat → Nat) (maxv : Nat) :
    ∀ (ds : List Nat) (v : Nat) (rest : List Nat),
      drawLoop f maxv ds = some (v, rest) → IsFirstAccepted f maxv ds v rest := by
  intro ds
  induction ds with
  | nil => intro v rest h; simp [drawLoop] at h
  | cons d tl ih =>
    intro v rest h
    by_cases hd : f d < maxv
    · simp only [drawLoop, if_pos hd, Option.some.injEq, Prod.mk.injEq] at h
      exact ⟨[], d, by simp [h.2], by simp, hd, h.1.symm⟩
    · simp only [drawLoop, if_neg hd] at h
      obtain ⟨pre, d', hds, hpre, hacc, hv⟩ := ih v rest h
      refine ⟨d :: pre, d', by simp [hds], ?_, hacc, hv⟩
      intro x hx
      rcases List.mem_cons.mp hx with rfl | hx
      · exact not_lt.mp hd
      · exact hpre x hx

/-- In `[0, n*c)` every residue class mod `n` has exactly `c` members. -/
theorem card_range_filter_mod (n c k : Nat) (hn : 0 < n) (hk : k < n) :
    ((Finset.range (n * c)).filter (fun v => v % n = k)).card = c := by
  have h : ((Finset.range (n * c)).filter (fun v => v % n = k)).card
      = (Finset.range c).card := by
    refine Finset.card_bij' (fun v _ => v / n) (fun q _ => n * q + k) ?_ ?_ ?_ ?_
    · intro v hv
      rw [Finset.mem_filter, Finset.mem_range] at hv
      rw [Finset.mem_range]
      exact Nat.div_lt_of_lt_mul hv.1
    · intro q hq
      rw [Finset.mem_range] at hq
      rw [Finset.mem_filter, Finset.mem_range]
      constructor
      · calc n * q + k < n * q + n := by omega
          _ = n * (q + 1) := by ring
          _ ≤ n * c := Nat.mul_le_mul_left n hq
      · rw [Nat.mul_add_mod]
        exact Nat.mod_eq_of_lt hk
    · intro v hv
      dsimp only
      rw [Finset.mem_filter] at hv
      conv_lhs => rw [← hv.2]
      exact Nat.div_add_mod v n
    · intro q _
      dsimp only
      rw [Nat.mul_add_div hn, Nat.div_eq_of_lt hk, Nat.add_zero]
  rw [h, Finset.card_range]

/-- For a non-power-of-two bound `n` and a width whose value count `M + 1` is a
power of two, `max = M - M % n` is a multiple of `n`, does not exceed `M + 1`,
and is the largest such multiple. -/
theorem max_is_largest_multiple (M n : Nat) (h0 : 0 < n) (hnp : n &&& (n - 1) ≠ 0)
    (k : Nat) (hM : M + 1 = 2 ^ k) (hn : n ≤ M) :
    n ∣ (M - M % n) ∧ M - M % n ≤ M + 1 ∧
      ∀ m, n ∣ m → m ≤ M + 1 → m ≤ M - M % n := by
  have hdm := Nat.div_add_mod M n
  have hml : M % n < n := Nat.mod_lt _ h0
  refine ⟨⟨M / n, by omega⟩, by omega, ?_⟩
  rintro m ⟨c, rfl⟩ hle
  by_contra hgt
  push_neg at hgt
  have h1 : n * (M / n) < n * c := by omega
  have h2 : M / n < c := Nat.lt_of_mul_lt_mul_left h1
  have h3 : n * (M / n + 1) ≤ n * c := Nat.mul_le_mul_left n h2
  have h4 : n * (M / n + 1) = n * (M / n) + n := by ring
  have h5 : M % n = n - 1 := by omega
  have h6 : M + 1 = n * (M / n + 1) := by omega
  exact not_dvd_two_pow_of_land_ne n hnp k (hM ▸ h6 ▸ ⟨M / n + 1, rfl⟩)

/-- Bundled statement of claim C1 at bound `n`; see `bounded_sampling_unbiased`. -/
def C1Prop (n : Nat) : Prop :=
  (∀ (M k : Nat), M + 1 = 2 ^ k → n ≤ M →
      n ∣ (M - M % n) ∧ M - M % n ≤ M + 1 ∧
        (∀ m, n ∣ m → m ≤ M + 1 → m ≤ M - M % n) ∧
        ∀ j < n, ((Finset.range (M - M % n)).filter (fun v => v % n = j)).card
          = (M - M % n) / n) ∧
  (∀ ds r rest, Int31n (n : Int) ds = .ok (some (r, rest)) →
      r < n ∧ ∃ v, IsFirstAccepted Int31 (maxInt32 - maxInt32 % n) ds v rest ∧
        r = v % n) ∧
  (∀ ds r rest, Int63n (n : Int) ds = .ok (some (r, rest)) →
      r < n ∧ ∃ v, IsFirstAccepted Int63 (maxInt64 - maxInt64 % n) ds v rest ∧
        r = v % n) ∧
  (n < 2 ^ 32 → ∀ ds r rest, Uint64nUint32n n ds = some (r, rest) →
      r < n ∧ ∃ v, IsFirstAccepted u32 (maxUint32 - maxUint32 % n) ds v rest ∧
        r = v % n) ∧
  (n < 2 ^ 64 → ∀ ds r rest, Uint64n n ds = some (r, rest) →
      r < n ∧ ∃ v, IsFirstAccepted u64 (maxUint64 - maxUint64 % n) ds v rest ∧
        r = v % n)

/-- For `n ≥ 1`, the wrapping decrements agree with plain subtraction,
so the unsigned mask tests match `n &&& (n - 1)`. -/
theorem u32sub1_of_pos {n : Nat} (h0 : 0 < n) (hw : n < 2 ^ 32) :
    u32sub1 n = n - 1 := by
  unfold u32sub1
  have : n + 2 ^ 32 - 1 = (n - 1) + 2 ^ 32 := by omega
  rw [this, Nat.add_mod_right, Nat.mod_eq_of_lt (by omega)]

/-- 64-bit analogue of `u32sub1_of_pos`. -/
theorem u64sub1_of_pos {n : Nat} (h0 : 0 < n) (hw : n < 2 ^ 64) :
    u64sub1 n = n - 1 := by
  unfold u64sub1
  have : n + 2 ^ 64 - 1 = (n - 1) + 2 ^ 64 := by omega
  rw [this, Nat.add_mod_right, Nat.mod_eq_of_lt (by omega)]

/-- Inverting the rejection branch of `Int31n` (non-power-of-two bound). -/
theorem Int31n_reject_inv (n : Nat) (h0 : 0 < n) (hnp : n &&& (n - 1) ≠ 0)
    (ds : List Nat) (r : Nat) (rest : List Nat)
    (h : Int31n (n : Int) ds = .ok (some (r, rest))) :
    r < n ∧ ∃ v, IsFirstAccepted Int31 (maxInt32 - maxInt32 % n) ds v rest ∧
      r = v % n := by
  have hpos : (0 : Int) < n := by exact_mod_cast h0
  simp only [Int31n, if_neg (not_le.mpr hpos), Int.toNat_natCast, if_neg hnp,
    Except.ok.injEq, Option.map_eq_some'] at h
  obtain ⟨⟨v, rest'⟩, hdl, heq⟩ := h
  obtain ⟨hr, hrest⟩ : v % n = r ∧ rest' = rest := by simpa using heq
  subst hrest
  exact ⟨hr ▸ Nat.mod_lt v h0, v, drawLoop_eq_some _ _ ds v _ hdl, hr.symm⟩

/-- Inverting the rejection branch of `Int63n` (non-power-of-two bound). -/
theorem Int63n_reject_inv (n : Nat) (h0 : 0 < n) (hnp : n &&& (n - 1) ≠ 0)
    (ds : List Nat) (r : Nat) (rest : List Nat)
    (h : Int63n (n : Int) ds = .ok (some (r, rest))) :
    r < n ∧ ∃ v, IsFirstAccepted Int63 (maxInt64 - maxInt64 % n) ds v rest ∧
      r = v % n := by
  have hpos : (0 : Int) < n := by exact_mod_cast h0
  simp only [Int63n, if_neg (not_le.mpr hpos), Int.toNat_natCast, if_neg hnp,
    Except.ok.injEq, Option.map_eq_some'] at h
  obtain ⟨⟨v, rest'⟩, hdl, heq⟩ := h
  obtain ⟨hr, hrest⟩ : v % n = r ∧ rest' = rest := by simpa using heq
  subst hrest
  exact ⟨hr ▸ Nat.mod_lt v h0, v, drawLoop_eq_some _ _ ds v _ hdl, hr.symm⟩

/-- Inverting the rejection branch of `Uint64nUint32n`. -/
theorem Uint64nUint32n_reject_inv (n : Nat) (h0 : 0 < n) (hnp : n &&& (n - 1) ≠ 0)
    (hw : n < 2 ^ 32) (ds : List Nat) (r : Nat) (rest : List Nat)
    (h : Uint64nUint32n n ds = some (r, rest)) :
    r < n ∧ ∃ v, IsFirstAccepted u32 (maxUint32 - maxUint32 % n) ds v rest ∧
      r = v % n := by
  rw [Uint64nUint32n.eq_def, u32sub1_of_pos h0 hw, if_neg hnp, Option.map_eq_some'] at h
  obtain ⟨⟨v, rest'⟩, hdl, heq⟩ := h
  obtain ⟨hr, hrest⟩ : v % n = r ∧ rest' = rest := by simpa using heq
  subst hrest
  exact ⟨hr ▸ Nat.mod_lt v h0, v, drawLoop_eq_some _ _ ds v _ hdl, hr.symm⟩

/-- Inverting the rejection branch of `Uint64n`. -/
theorem Uint64n_reject_inv (n : Nat) (h0 : 0 < n) (hnp : n &&& (n - 1) ≠ 0)
    (hw : n < 2 ^ 64) (ds : List Nat) (r : Nat) (rest : List Nat)
    (h : Uint64n n ds = some (r, rest)) :
    r < n ∧ ∃ v, IsFirstAccepted u64 (maxUint64 - maxUint64 % n) ds v rest ∧
      r = v % n := by
  rw [Uint64n.eq_def, u64sub1_of_pos h0 hw, if_neg hnp, Option.map_eq_some'] at h
  obtain ⟨⟨v, rest'⟩, hdl, heq⟩ := h
  obtain ⟨hr, hrest⟩ : v % n = r ∧ rest' = rest := by simpa using heq
  subst hrest
  exact ⟨hr ▸ Nat.mod_lt v h0, v, drawLoop_eq_some _ _ ds v _ hdl, hr.symm⟩

/-- C1: for every non-power-of-two bound `n > 0`, each bounded sampler computes
`max = MAXVAL - MAXVAL % n`, the largest multiple of `n` not exceeding
`MAXVAL + 1`; it rejects raw values `≥ max`, returns `v % n` for the first
accepted `v < max`, so the result lies in `[0, n)`, and each outcome `j < n`
has exactly `max / n` accepted preimages. -/
theorem bounded_sampling_unbiased (n : Nat) (h0 : 0 < n)
    (hnp : n &&& (n - 1) ≠ 0) : C1Prop n := by
  refine ⟨?_, Int31n_reject_inv n h0 hnp, Int63n_reject_inv n h0 hnp,
    fun hw => Uint64nUint32n_reject_inv n h0 hnp hw,
    fun hw => Uint64n_reject_inv n h0 hnp hw⟩
  intro M k hM hn
  obtain ⟨hdvd, hle, hmax⟩ := max_is_largest_multiple M n h0 hnp k hM hn
  refine ⟨hdvd, hle, hmax, ?_⟩
  intro j hj
  obtain ⟨c, hc⟩ := hdvd
  rw [hc, card_range_filter_mod n c j h0 hj, Nat.mul_div_cancel_left c h0]

/-- Witness for C1 at the concrete non-power-of-two bound `n = 3`. -/
theorem bounded_sampling_unbiased_witness : C1Prop 3 :=
  bounded_sampling_unbiased 3 (by decide) (by decide)

/-- C2: for every signed bound `n ≤ 0` both signed bounded samplers fail fast
with a panic (`Except.error`), independent of the draw supply — so before
drawing any word — and never clamp or return a value; for every `n > 0` they
never panic. -/
theorem signed_samplers_fail_fast (n : Int) (ds : List Nat) :
    (n ≤ 0 →
      Int31n n ds = .error "fastrand.Int31n: invalid argument" ∧
      Int63n n ds = .error "fastrand.Int63n: invalid argument") ∧
    (0 < n → (∃ o, Int31n n ds = .ok o) ∧ ∃ o, Int63n n ds = .ok o) := by
  constructor
  · intro h
    exact ⟨by simp [Int31n, h], by simp [Int63n, h]⟩
  · intro h
    have h' : ¬ n ≤ 0 := not_le.mpr h
    constructor
    · by_cases hm : n.toNat &&& (n.toNat - 1) = 0
      · cases ds with
        | nil => exact ⟨none, by simp [Int31n, h', hm]⟩
        | cons d rest =>
          exact ⟨some (Int31 d &&& (n.toNat - 1), rest), by simp [Int31n, h', hm]⟩
      · exact ⟨(drawLoop Int31 (maxInt32 - maxInt32 % n.toNat) ds).map
            (fun vr => (vr.1 % n.toNat, vr.2)), by simp [Int31n, h', hm]⟩
    · by_cases hm : n.toNat &&& (n.toNat - 1) = 0
      · cases ds with
        | nil => exact ⟨none, by simp [Int63n, h', hm]⟩
        | cons d rest =>
          exact ⟨some (Int63 d &&& (n.toNat - 1), rest), by simp [Int63n, h', hm]⟩
      · exact ⟨(drawLoop Int63 (maxInt64 - maxInt64 % n.toNat) ds).map
            (fun vr => (vr.1 % n.toNat, vr.2)), by simp [Int63n, h', hm]⟩

/-- Witness for C2: concrete panic at `n = -5` and concrete non-panic at
`n = 4`. -/
theorem signed_samplers_fail_fast_witness :
    Int31n (-5) [] = .error "fastrand.Int31n: invalid argument" ∧
    ∃ o, Int63n 4 [3] = .ok o :=
  ⟨((signed_samplers_fail_fast (-5) []).1 (by decide)).1,
   ((signed_samplers_fail_fast 4 [3]).2 (by decide)).2⟩

/-- Bundled statement of claim C3 at exponent `j`; see `power_of_two_mask_path`.
The width guards record the range of each Go argument type. -/
def C3Prop (j : Nat) : Prop :=
  ∀ (d : Nat) (ds : List Nat),
    (j ≤ 30 →
      Int31n ((2 ^ j : Nat) : Int) (d :: ds)
        = .ok (some (Int31 d &&& (2 ^ j - 1), ds))) ∧
    (j ≤ 62 →
      Int63n ((2 ^ j : Nat) : Int) (d :: ds)
        = .ok (some (Int63 d &&& (2 ^ j - 1), ds))) ∧
    (j ≤ 31 →
      Uint64nUint32n (2 ^ j) (d :: ds) = some (u32 d &&& (2 ^ j - 1), ds)) ∧
    (j ≤ 63 →
      Uint64n (2 ^ j) (d :: ds) = some (u64 d &&& (2 ^ j - 1), ds))

/-- C3: for every power-of-two bound `n = 2^j`, every bounded sampler consumes
exactly one draw and returns the raw draw masked with `n - 1`, with no
rejection loop (the rest of the draw supply is returned untouched). -/
theorem power_of_two_mask_path (j : Nat) : C3Prop j := by
  intro d ds
  have hpos : (0 : Nat) < 2 ^ j := Nat.pos_pow_of_pos j (by norm_num)
  have hposI : ¬ (((2 ^ j : Nat) : Int) ≤ 0) := by
    push_neg
    exact_mod_cast hpos
  have hmask := two_pow_land_sub_one j
  refine ⟨fun _ => ?_, fun _ => ?_, fun hj => ?_, fun hj => ?_⟩
  · simp only [Int31n, if_neg hposI, Int.toNat_natCast, if_pos hmask]
  · simp only [Int63n, if_neg hposI, Int.toNat_natCast, if_pos hmask]
  · have hw : 2 ^ j < 2 ^ 32 :=
      lt_of_le_of_lt (Nat.pow_le_pow_right (by norm_num) hj) (by norm_num)
    rw [Uint64nUint32n.eq_def, u32sub1_of_pos hpos hw, if_pos hmask]
  · have hw : 2 ^ j < 2 ^ 64 :=
      lt_of_le_of_lt (Nat.pow_le_pow_right (by norm_num) hj) (by norm_num)
    rw [Uint64n.eq_def, u64sub1_of_pos hpos hw, if_pos hmask]

/-- Witness for C3 at `j = 3` (`n = 8`), raw draw `5`. -/
theorem power_of_two_mask_path_witness :
    Int31n ((2 ^ 3 : Nat) : Int) [5] = .ok (some (Int31 5 &&& (2 ^ 3 - 1), [])) ∧
    Uint64n (2 ^ 3) [5] = some (u64 5 &&& (2 ^ 3 - 1), []) :=
  ⟨(power_of_two_mask_path 3 5 []).1 (by decide),
   (power_of_two_mask_path 3 5 []).2.2.2 (by decide)⟩

/-- C10: for bound `n = 0` the unsigned bounded samplers are total (no division
by zero, no panic): `0 & (0-1) = 0` passes the power-of-two test at unsigned
width, so they take the mask path, masking the raw word with all ones and
returning a full-range unsigned value from a single draw. -/
theorem unsigned_zero_bound_mask_path (d : Nat) (ds : List Nat) :
    Uint64n 0 (d :: ds) = some (u64 d, ds) ∧
    u64sub1 0 = 2 ^ 64 - 1 ∧ u64 d &&& (2 ^ 64 - 1) = u64 d ∧ u64 d < 2 ^ 64 ∧
    Uint64nUint32n 0 (d :: ds) = some (u32 d, ds) ∧
    u32sub1 0 = 2 ^ 32 - 1 ∧ u32 d &&& (2 ^ 32 - 1) = u32 d ∧ u32 d < 2 ^ 32 := by
  have h64 : u64sub1 0 = 2 ^ 64 - 1 := by norm_num [u64sub1]
  have h32 : u32sub1 0 = 2 ^ 32 - 1 := by norm_num [u32sub1]
  have hm64 : u64 d &&& (2 ^ 64 - 1) = u64 d := by
    rw [Nat.and_pow_two_sub_one_eq_mod]
    unfold u64
    omega
  have hm32 : u32 d &&& (2 ^ 32 - 1) = u32 d := by
    rw [Nat.and_pow_two_sub_one_eq_mod]
    unfold u32
    omega
  refine ⟨?_, h64, hm64, Nat.mod_lt _ (by norm_num), ?_, h32, hm32,
    Nat.mod_lt _ (by norm_num)⟩
  · rw [Uint64n.eq_def, if_pos (Nat.zero_and _), h64]
    simpa using hm64
  · rw [Uint64nUint32n.eq_def, if_pos (Nat.zero_and _), h32]
    simpa using hm32

/-! ### Buffer filling -/

/-- Little-endian byte `i` of the word `v`: `byte(v >> (i*8))`. -/
def byteOf (v i : Nat) : Nat := (v >>> (i * 8)) % 2 ^ 8

/-- `putU64` of the default (`!safe`) build configuration
(`*(*uint64)(unsafe.Pointer(&p[0])) = v` on Go's little-endian targets):
store the 8 bytes of `v` into the first 8 bytes of `p`, little-endian. -/
def putU64 (p : List Nat) (v : Nat) : List Nat :=
  (List.range 8).map (fun i => byteOf v i) ++ p.drop 8

/-- `putU64` of the `safe` build configuration as written in the source: after
the bounds check `_ = p[7]`, its body stores the bytes of `v` through the
identifier `b`, which is not the parameter `p` and is declared nowhere in the
package (the Go compiler rejects the file).  Its effect on the buffer `p` is
therefore nil. -/
def putU64safe (p : List Nat) (v : Nat) : List Nat :=
  p

/-- The generic `fill` helper: `p[i] = byte(v >> (i*8))` for every index. -/
def fill (p : List Nat) (v : Nat) : List Nat :=
  (List.range p.length).map (fun i => byteOf v i)

/-- `Fill` from `fastrand.go`: consume 8-byte chunks with `putU64(p, u64())`,
then handle a 5–7 byte remainder with `fill(p, u64())`, a 1–4 byte remainder
with `fill(p, u32())`, and an empty remainder with no draw.  `s` is the draw
stream and `k` the index of the next draw. -/
def Fill (s : Nat → Nat) (k : Nat) : List Nat → List Nat
  | b0 :: b1 :: b2 :: b3 :: b4 :: b5 :: b6 :: b7 :: rest =>
      putU64 [b0, b1, b2, b3, b4, b5, b6, b7] (u64 (s k)) ++ Fill s (k + 1) rest
  | p =>
      if p.length > 4 then fill p (u64 (s k))
      else if p.length > 0 then fill p (u32 (s k))
      else p

/-- The byte `Fill` is specified to put at offset `i` of a buffer of length
`len`: bytes of the `i/8`-th 64-bit draw for the full chunks, then bytes of
one extra 64-bit draw (remainder 5–7) or one 32-bit draw (remainder 1–4). -/
def fillSpec (s : Nat → Nat) (k len : Nat) : List Nat :=
  (List.range len).map fun i =>
    if i / 8 < len / 8 then byteOf (u64 (s (k + i / 8))) (i % 8)
    else if len % 8 > 4 then byteOf (u64 (s (k + len / 8))) (i % 8)
    else byteOf (u32 (s (k + len / 8))) (i % 8)

/-- Peeling one full 8-byte chunk off `fillSpec`. -/
theorem fillSpec_step (s : Nat → Nat) (k L : Nat) :
    fillSpec s k (8 + L)
      = (List.range 8).map (fun i => byteOf (u64 (s k)) i)
        ++ fillSpec s (k + 1) L := by
  unfold fillSpec
  rw [List.range_add, List.map_append, List.map_map]
  congr 1
  · apply List.map_congr_left
    intro i hi
    rw [List.mem_range] at hi
    have hd : i / 8 = 0 := Nat.div_eq_of_lt hi
    have hm : i % 8 = i := Nat.mod_eq_of_lt hi
    have hq : (8 + L) / 8 = L / 8 + 1 := by omega
    rw [hd, hq, hm, if_pos (Nat.succ_pos _), Nat.add_zero]
  · apply List.map_congr_left
    intro i _
    simp only [Function.comp]
    have hd : (8 + i) / 8 = i / 8 + 1 := by omega
    have hm : (8 + i) % 8 = i % 8 := by omega
    have hq : (8 + L) / 8 = L / 8 + 1 := by omega
    have hr : (8 + L) % 8 = L % 8 := by omega
    rw [hd, hm, hq, hr]
    have hcong : k + (i / 8 + 1) = k + 1 + i / 8 := by omega
    have hcong2 : k + (L / 8 + 1) = k + 1 + L / 8 := by omega
    rw [hcong, hcong2]
    simp only [add_lt_add_iff_right]

/-- `Fill` overwrites the whole buffer with the bytes described by `fillSpec`;
in particular the result depends only on the length of the buffer, not on its
previous contents. -/
theorem Fill_eq_fillSpec (s : Nat → Nat) : ∀ (k : Nat) (p : List Nat),
    Fill s k p = fillSpec s k p.length
  | _, [] => by simp [Fill, fillSpec]
  | _, [b0] => by simp [Fill, fillSpec, fill, List.range_succ]
  | _, [b0, b1] => by simp [Fill, fillSpec, fill, List.range_succ]
  | _, [b0, b1, b2] => by simp [Fill, fillSpec, fill, List.range_succ]
  | _, [b0, b1, b2, b3] => by simp [Fill, fillSpec, fill, List.range_succ]
  | _, [b0, b1, b2, b3, b4] => by simp [Fill, fillSpec, fill, List.range_succ]
  | _, [b0, b1, b2, b3, b4, b5] => by simp [Fill, fillSpec, fill, List.range_succ]
  | _, [b0, b1, b2, b3, b4, b5, b6] => by simp [Fill, fillSpec, fill, List.range_succ]
  | k, b0 :: b1 :: b2 :: b3 :: b4 :: b5 :: b6 :: b7 :: rest => by
      have h : (b0 :: b1 :: b2 :: b3 :: b4 :: b5 :: b6 :: b7 :: rest).length
          = 8 + rest.length := by
        simp [List.length_cons]
        omega
      rw [h, fillSpec_step, ← Fill_eq_fillSpec s (k + 1) rest]
      simp only [Fill]
      rw [putU64]
      simp

/-- `fillSpec` produces exactly `len` bytes. -/
theorem fillSpec_length (s : Nat → Nat) (k len : Nat) :
    (fillSpec s k len).length = len := by
  unfold fillSpec
  rw [List.length_map, List.length_range]

/-- C5: `Fill` overwrites every byte of the buffer and leaves its length
unchanged: the result is exactly `fillSpec` of the length — `len/8` successive
little-endian 64-bit draws, then the needed low-order bytes of one extra
64-bit draw for a 5–7 byte remainder, of one 32-bit draw for a 1–4 byte
remainder, and no further draw for remainder 0; in particular the output is
independent of the buffer's previous contents. -/
theorem Fill_overwrites_all (s : Nat → Nat) (k : Nat) (p q : List Nat) :
    Fill s k p = fillSpec s k p.length ∧
    (Fill s k p).length = p.length ∧
    (q.length = p.length → Fill s k p = Fill s k q) := by
  refine ⟨Fill_eq_fillSpec s k p, ?_, ?_⟩
  · rw [Fill_eq_fillSpec s k p, fillSpec_length]
  · intro hq
    rw [Fill_eq_fillSpec s k p, Fill_eq_fillSpec s k q, hq]

/-- Witness for C5 on a 13-byte buffer of zeros (one full chunk plus a 5-byte
remainder) against an 13-byte buffer of ones. -/
theorem Fill_overwrites_all_witness :
    Fill (fun _ => 0) 0 (List.replicate 13 0)
      = Fill (fun _ => 0) 0 (List.replicate 13 1) :=
  (Fill_overwrites_all (fun _ => 0) 0 (List.replicate 13 0)
    (List.replicate 13 1)).2.2 (by decide)

/-- C7: the `safe` build's `putU64` as written does not store the bytes of `v`
into `p` (its body assigns to the undeclared identifier `b`), so it disagrees
with the default build's little-endian `putU64` already on an 8-byte zero
buffer and `v = 1`, where the correct implementation writes `[1,0,0,0,0,0,0,0]`. -/
theorem putU64_safe_fast_disagree :
    putU64safe (List.replicate 8 0) 1 ≠ putU64 (List.replicate 8 0) 1 ∧
    putU64 (List.replicate 8 0) 1 = [1, 0, 0, 0, 0, 0, 0, 0] ∧
    putU64safe (List.replicate 8 0) 1 = [0, 0, 0, 0, 0, 0, 0, 0] := by
  refine ⟨?_, by decide, by decide⟩
  decide

/-- `Reader().Read(p)` from `fastrand.go`: `Fill(p); return len(p), nil`.
The triple is (buffer after the call, reported byte count, error), with
`none` standing for Go's `nil` error. -/
def readerRead (s : Nat → Nat) (k : Nat) (p : List Nat) :
    List Nat × Nat × Option String :=
  (Fill s k p, p.length, none)

/-- C8: `Read` fills the whole buffer with pseudo-random bytes (the bytes of
`fillSpec`, whose length is the buffer's length), reports a bytes-written
count equal to the buffer length, and never returns an error. -/
theorem reader_read_total (s : Nat → Nat) (k : Nat) (p : List Nat) :
    (readerRead s k p).1 = fillSpec s k p.length ∧
    (readerRead s k p).1.length = p.length ∧
    (readerRead s k p).2.1 = p.length ∧
    (readerRead s k p).2.2 = none := by
  refine ⟨Fill_eq_fillSpec s k p, ?_, rfl, rfl⟩
  rw [show (readerRead s k p).1 = Fill s k p from rfl, Fill_eq_fillSpec s k p,
    fillSpec_length]

/-! ### Shuffle -/

/-- The swap `s[i], s[j] = s[j], s[i]` on a list, identity when an index is
out of range (inside `Shuffle` both indices are always in range because the
bounded samplers return values below the bound, see `Int31n_lt_bound`). -/
def swapL {α : Type _} (l : List α) (i j : Nat) : List α :=
  match l[i]?, l[j]? with
  | some a, some b => (l.set i b).set j a
  | _, _ => l

/-- The downward loop of `Shuffle` over the Go index `gi = i + 1`, combining
the two source loops: `Int63n(gi+1)` while `gi >= maxInt32 - 1` (the 64-bit
head range of a huge slice), `Int31n(gi+1)` below, each followed by the swap
of positions `gi` and `j`.  A sampler panic or an exhausted draw supply yields
`none`. -/
def shuffleLoop {α : Type _} : Nat → List Nat → List α → Option (List α)
  | 0, _, l => some l
  | i + 1, ds, l =>
      match (if maxInt32 - 1 ≤ i + 1
              then Int63n ((i + 2 : Nat) : Int) ds
              else Int31n ((i + 2 : Nat) : Int) ds) with
      | .error _ => none
      | .ok none => none
      | .ok (some (j, ds')) => shuffleLoop i ds' (swapL l (i + 1) j)

/-- `Shuffle` from `fastrand.go`: Fisher–Yates from index `len(s) - 1`
downward. -/
def Shuffle {α : Type _} (ds : List Nat) (l : List α) : Option (List α) :=
  shuffleLoop (l.length - 1) ds l

/-- Any accepted result of `Int31n` is below the bound. -/
theorem Int31n_lt_bound (n : Nat) (h0 : 0 < n) (ds : List Nat) (r : Nat)
    (rest : List Nat) (h : Int31n (n : Int) ds = .ok (some (r, rest))) :
    r < n := by
  have hpos : (0 : Int) < n := by exact_mod_cast h0
  by_cases hm : n &&& (n - 1) = 0
  · cases ds with
    | nil => simp [Int31n, not_le.mpr hpos, hm] at h
    | cons d tl =>
      simp only [Int31n, if_neg (not_le.mpr hpos), Int.toNat_natCast, if_pos hm,
        Except.ok.injEq, Option.some.injEq, Prod.mk.injEq] at h
      calc r = Int31 d &&& (n - 1) := h.1.symm
        _ ≤ n - 1 := Nat.and_le_right
        _ < n := by omega
  · simp only [Int31n, if_neg (not_le.mpr hpos), Int.toNat_natCast, if_neg hm,
      Except.ok.injEq, Option.map_eq_some'] at h
    obtain ⟨⟨v, rest'⟩, _, heq⟩ := h
    obtain ⟨hr, _⟩ : v % n = r ∧ rest' = rest := by simpa using heq
    exact hr ▸ Nat.mod_lt v h0

/-- Any accepted result of `Int63n` is below the bound. -/
theorem Int63n_lt_bound (n : Nat) (h0 : 0 < n) (ds : List Nat) (r : Nat)
    (rest : List Nat) (h : Int63n (n : Int) ds = .ok (some (r, rest))) :
    r < n := by
  have hpos : (0 : Int) < n := by exact_mod_cast h0
  by_cases hm : n &&& (n - 1) = 0
  · cases ds with
    | nil => simp [Int63n, not_le.mpr hpos, hm] at h
    | cons d tl =>
      simp only [Int63n, if_neg (not_le.mpr hpos), Int.toNat_natCast, if_pos hm,
        Except.ok.injEq, Option.some.injEq, Prod.mk.injEq] at h
      calc r = Int63 d &&& (n - 1) := h.1.symm
        _ ≤ n - 1 := Nat.and_le_right
        _ < n := by omega
  · simp only [Int63n, if_neg (not_le.mpr hpos), Int.toNat_natCast, if_neg hm,
      Except.ok.injEq, Option.map_eq_some'] at h
    obtain ⟨⟨v, rest'⟩, _, heq⟩ := h
    obtain ⟨hr, _⟩ : v % n = r ∧ rest' = rest := by simpa using heq
    exact hr ▸ Nat.mod_lt v h0

/-- Moving the element stored at position `m` to the front while writing `x`
into its place is a permutation of putting `x` in front. -/
theorem cons_set_perm {α : Type _} :
    ∀ (t : List α) (m : Nat) (b x : α), t[m]? = some b →
      (b :: t.set m x).Perm (x :: t)
  | [], m, b, x => by intro h; simp at h
  | y :: t, 0, b, x => by
    intro h
    obtain rfl : y = b := by simpa using h
    exact List.Perm.swap x y t
  | y :: t, m + 1, b, x => by
    intro h
    have h' : t[m]? = some b := by simpa using h
    have e1 : (b :: (y :: t).set (m + 1) x) = b :: y :: t.set m x := by simp
    rw [e1]
    exact (List.Perm.swap y b _).trans
      (((cons_set_perm t m b x h').cons y).trans (List.Perm.swap x y t))

/-- The two-sided set realizing a swap permutes the list. -/
theorem set_set_perm {α : Type _} :
    ∀ (l : List α) (i j : Nat) (a b : α), l[i]? = some a → l[j]? = some b →
      ((l.set i b).set j a).Perm l
  | [], i, j, a, b => by intro hi _; simp at hi
  | x :: t, 0, 0, a, b => by
    intro hi hj
    obtain rfl : x = a := by simpa using hi
    simp
  | x :: t, 0, j + 1, a, b => by
    intro hi hj
    obtain rfl : x = a := by simpa using hi
    have hj' : t[j]? = some b := by simpa using hj
    have e1 : ((x :: t).set 0 b).set (j + 1) x = b :: t.set j x := by simp
    rw [e1]
    exact cons_set_perm t j b x hj'
  | x :: t, i + 1, 0, a, b => by
    intro hi hj
    obtain rfl : x = b := by simpa using hj
    have hi' : t[i]? = some a := by simpa using hi
    have e1 : ((x :: t).set (i + 1) x).set 0 a = a :: t.set i x := by simp
    rw [e1]
    exact cons_set_perm t i a x hi'
  | x :: t, i + 1, j + 1, a, b => by
    intro hi hj
    have hi' : t[i]? = some a := by simpa using hi
    have hj' : t[j]? = some b := by simpa using hj
    have e1 : ((x :: t).set (i + 1) b).set (j + 1) a = x :: (t.set i b).set j a := by
      simp
    rw [e1]
    exact (set_set_perm t i j a b hi' hj').cons x

/-- `swapL` permutes the list (unconditionally: out-of-range indices leave it
unchanged). -/
theorem swapL_perm {α : Type _} (l : List α) (i j : Nat) :
    (swapL l i j).Perm l := by
  unfold swapL
  cases hi : l[i]? with
  | none => exact List.Perm.refl l
  | some a =>
    cases hj : l[j]? with
    | none => exact List.Perm.refl l
    | some b => exact set_set_perm l i j a b hi hj

/-- Every successful run of the shuffle loop permutes the list. -/
theorem shuffleLoop_perm {α : Type _} :
    ∀ (i : Nat) (ds : List Nat) (l out : List α),
      shuffleLoop i ds l = some out → out.Perm l
  | 0, ds, l, out => by
    intro h
    obtain rfl : l = out := by simpa [shuffleLoop] using h
    exact List.Perm.refl l
  | i + 1, ds, l, out => by
    intro h
    unfold shuffleLoop at h
    cases hres : (if maxInt32 - 1 ≤ i + 1
        then Int63n ((i + 2 : Nat) : Int) ds
        else Int31n ((i + 2 : Nat) : Int) ds) with
    | error e => rw [hres] at h; simp at h
    | ok o =>
      rw [hres] at h
      cases o with
      | none => simp at h
      | some jds =>
        obtain ⟨j, ds'⟩ := jds
        exact (shuffleLoop_perm i ds' (swapL l (i + 1) j) out h).trans
          (swapL_perm l (i + 1) j)

/-- C6: `Shuffle` iterates the index downward, drawing `j` from `[0, i+1)`
through a bounded sampler (whose accepted results are always below the bound)
and swapping positions `i` and `j`; every successful result is a permutation
of the input, and on empty or single-element slices it is a no-op that
consumes no draws and cannot fail. -/
theorem shuffle_permutes {α : Type _} (ds : List Nat) (l : List α) :
    (∀ out, Shuffle ds l = some out → out.Perm l) ∧
    (l.length ≤ 1 → Shuffle ds l = some l) ∧
    (∀ (n : Nat) (ds1 : List Nat) (j : Nat) (rest : List Nat), 0 < n →
      (Int31n (n : Int) ds1 = .ok (some (j, rest)) → j < n) ∧
      (Int63n (n : Int) ds1 = .ok (some (j, rest)) → j < n)) := by
  refine ⟨?_, ?_, ?_⟩
  · intro out h
    exact shuffleLoop_perm (l.length - 1) ds l out h
  · intro hlen
    have h0 : l.length - 1 = 0 := by omega
    rw [Shuffle, h0, shuffleLoop]
  · intro n ds1 j rest h0
    exact ⟨Int31n_lt_bound n h0 ds1 j rest, Int63n_lt_bound n h0 ds1 j rest⟩

/-- Witness for C6: a concrete two-element shuffle (draw `0` picks `j = 0`,
swapping the two elements) and a concrete singleton no-op. -/
theorem shuffle_permutes_witness :
    ([20, 10] : List Nat).Perm [10, 20] ∧
    Shuffle [] ([5] : List Nat) = some [5] :=
  ⟨(shuffle_permutes [0] [10, 20]).1 [20, 10] (by decide),
   (shuffle_permutes ([] : List Nat) [5]).2.1 (by decide)⟩

/-! ### Floating point

The float operations of `Float32`, `Float64` and `Jitter` are embedded over
`ℚ` with an explicit IEEE 754 round-to-nearest-even model: every Go float
operation (a conversion or one arithmetic operation on already-rounded
operands) is one application of `froundP p` (`p = 53` significand bits for
`float64`, `p = 24` for `float32`).  The model covers the normal range;
overflow and subnormals do not occur at any value these functions produce
from their masked inputs. -/

/-- Round a rational to the nearest integer, ties to even. -/
def roundNE (x : ℚ) : ℤ :=
  if x - ⌊x⌋ < 1 / 2 then ⌊x⌋
  else if 1 / 2 < x - ⌊x⌋ then ⌊x⌋ + 1
  else if ⌊x⌋ % 2 = 0 then ⌊x⌋ else ⌊x⌋ + 1

/-- The binary exponent `⌊log₂ y⌋` of a positive rational `y`. -/
def floorLog2 (y : ℚ) : ℤ :=
  let e0 : ℤ := (Nat.log 2 y.num.toNat : ℤ) - (Nat.log 2 y.den : ℤ)
  if (2 : ℚ) ^ (e0 + 1) ≤ y then e0 + 1
  else if (2 : ℚ) ^ e0 ≤ y then e0
  else e0 - 1

/-- IEEE 754 binary rounding to nearest, ties to even, at `p` significand
bits (normal range). -/
def froundP (p : Nat) (x : ℚ) : ℚ :=
  if x = 0 then 0
  else (if x < 0 then (-1 : ℚ) else 1) *
    (roundNE (|x| * 2 ^ ((p : ℤ) - 1 - floorLog2 |x|)) : ℚ) *
    2 ^ (floorLog2 |x| - ((p : ℤ) - 1))

/-- `float64` rounding. -/
def fround : ℚ → ℚ := froundP 53

/-- `float32` rounding. -/
def fround32 : ℚ → ℚ := froundP 24

theorem roundNE_intCast (m : ℤ) : roundNE (m : ℚ) = m := by
  unfold roundNE
  simp [Int.floor_intCast]

theorem floorLog2_bracket (y : ℚ) (hy : 0 < y) :
    (2 : ℚ) ^ floorLog2 y ≤ y ∧ y < (2 : ℚ) ^ (floorLog2 y + 1) := by
  have hnum : (0 : ℤ) < y.num := Rat.num_pos.mpr hy
  have hden : (0 : ℕ) < y.den := y.den_pos
  set p : ℕ := y.num.toNat with hp
  set q : ℕ := y.den with hq
  have hp0 : 0 < p := by
    have := Int.toNat_of_nonneg (le_of_lt hnum)
    omega
  have hyeq : y = (p : ℚ) / (q : ℚ) := by
    rw [hp, hq]
    rw [show ((y.num.toNat : ℕ) : ℚ) = ((y.num : ℤ) : ℚ) by
      exact_mod_cast congrArg (fun z : ℤ => (z : ℚ)) (Int.toNat_of_nonneg (le_of_lt hnum))]
    exact (Rat.num_div_den y).symm
  set lp : ℕ := Nat.log 2 p with hlp
  set lq : ℕ := Nat.log 2 q with hlq
  have hp1 : (2 : ℚ) ^ (lp : ℤ) ≤ (p : ℚ) := by
    rw [zpow_natCast]
    exact_mod_cast Nat.pow_log_le_self 2 (Nat.pos_iff_ne_zero.mp hp0)
  have hp2 : (p : ℚ) < (2 : ℚ) ^ ((lp : ℤ) + 1) := by
    rw [show ((lp : ℤ) + 1) = ((lp + 1 : ℕ) : ℤ) by push_cast; ring, zpow_natCast]
    exact_mod_cast Nat.lt_pow_succ_log_self (by norm_num) p
  have hq1 : (2 : ℚ) ^ (lq : ℤ) ≤ (q : ℚ) := by
    rw [zpow_natCast]
    exact_mod_cast Nat.pow_log_le_self 2 (Nat.pos_iff_ne_zero.mp hden)
  have hq2 : (q : ℚ) < (2 : ℚ) ^ ((lq : ℤ) + 1) := by
    rw [show ((lq : ℤ) + 1) = ((lq + 1 : ℕ) : ℤ) by push_cast; ring, zpow_natCast]
    exact_mod_cast Nat.lt_pow_succ_log_self (by norm_num) q
  have hqQ : (0 : ℚ) < (q : ℚ) := by exact_mod_cast hden
  have htwo : (0 : ℚ) < 2 := by norm_num
  have hupper : y < (2 : ℚ) ^ ((lp : ℤ) - lq + 1) := by
    rw [hyeq, div_lt_iff₀ hqQ]
    calc (p : ℚ) < (2 : ℚ) ^ ((lp : ℤ) + 1) := hp2
      _ = (2 : ℚ) ^ ((lp : ℤ) - lq + 1) * (2 : ℚ) ^ (lq : ℤ) := by
          rw [← zpow_add₀ (by norm_num : (2 : ℚ) ≠ 0)]
          ring_nf
      _ ≤ (2 : ℚ) ^ ((lp : ℤ) - lq + 1) * (q : ℚ) := by
          exact mul_le_mul_of_nonneg_left hq1 (le_of_lt (zpow_pos htwo _))
  have hlower : (2 : ℚ) ^ ((lp : ℤ) - lq - 1) < y := by
    rw [hyeq, lt_div_iff₀ hqQ]
    calc (2 : ℚ) ^ ((lp : ℤ) - lq - 1) * (q : ℚ)
        < (2 : ℚ) ^ ((lp : ℤ) - lq - 1) * (2 : ℚ) ^ ((lq : ℤ) + 1) := by
          exact mul_lt_mul_of_pos_left hq2 (zpow_pos htwo _)
      _ = (2 : ℚ) ^ (lp : ℤ) := by
          rw [← zpow_add₀ (by norm_num : (2 : ℚ) ≠ 0)]
          ring_nf
      _ ≤ (p : ℚ) := hp1
  unfold floorLog2
  rw [← hp, ← hq, ← hlp, ← hlq]
  set e0 : ℤ := (lp : ℤ) - (lq : ℤ) with he0
  by_cases h1 : (2 : ℚ) ^ (e0 + 1) ≤ y
  · exact absurd h1 (not_le.mpr hupper)
  · rw [if_neg h1]
    by_cases h2 : (2 : ℚ) ^ e0 ≤ y
    · rw [if_pos h2]
      exact ⟨h2, not_le.mp h1⟩
    · rw [if_neg h2]
      constructor
      · exact le_of_lt hlower
      · rw [show e0 - 1 + 1 = e0 by ring]
        exact not_le.mp h2

theorem floorLog2_unique (y : ℚ) (e : ℤ) (hy : 0 < y)
    (h1 : (2 : ℚ) ^ e ≤ y) (h2 : y < (2 : ℚ) ^ (e + 1)) : floorLog2 y = e := by
  obtain ⟨b1, b2⟩ := floorLog2_bracket y hy
  by_contra hne
  rcases lt_or_gt_of_ne hne with hlt | hgt
  · have : (2 : ℚ) ^ (floorLog2 y + 1) ≤ (2 : ℚ) ^ e :=
      zpow_le_zpow_right₀ (by norm_num) (by omega)
    linarith
  · have : (2 : ℚ) ^ (e + 1) ≤ (2 : ℚ) ^ floorLog2 y :=
      zpow_le_zpow_right₀ (by norm_num) (by omega)
    linarith

theorem froundP_eq_of_intScale (p : Nat) (x : ℚ) (hx : x ≠ 0) (z : ℤ)
    (hz : (z : ℚ) = |x| * 2 ^ ((p : ℤ) - 1 - floorLog2 |x|)) :
    froundP p x = x := by
  unfold froundP
  rw [if_neg hx, ← hz, roundNE_intCast, hz]
  have h2 : (2 : ℚ) ≠ 0 := by norm_num
  have hcancel : |x| * 2 ^ ((p : ℤ) - 1 - floorLog2 |x|)
      * 2 ^ (floorLog2 |x| - ((p : ℤ) - 1)) = |x| := by
    rw [mul_assoc, ← zpow_add₀ h2,
      show ((p : ℤ) - 1 - floorLog2 |x|) + (floorLog2 |x| - ((p : ℤ) - 1)) = 0 by
        ring,
      zpow_zero, mul_one]
  by_cases hneg : x < 0
  · rw [if_pos hneg]
    rw [abs_of_neg hneg] at hcancel ⊢
    rw [mul_assoc, hcancel]
    ring
  · rw [if_neg hneg]
    rw [abs_of_nonneg (not_lt.mp hneg)] at hcancel ⊢
    rw [mul_assoc, hcancel, one_mul]

/-- A dyadic rational whose significand fits in `p` bits is rounded to
itself: the rounding model is exact on representable values. -/
theorem froundP_exact (p : Nat) (hp : 1 ≤ p) (m k : ℤ)
    (hm : m.natAbs ≤ 2 ^ p) :
    froundP p ((m : ℚ) * 2 ^ k) = (m : ℚ) * 2 ^ k := by
  rcases eq_or_ne m 0 with rfl | hm0
  · simp [froundP]
  have h2 : (2 : ℚ) ≠ 0 := by norm_num
  have h2p : (0 : ℚ) < 2 := by norm_num
  set x : ℚ := (m : ℚ) * 2 ^ k with hxdef
  have hx : x ≠ 0 :=
    mul_ne_zero (by exact_mod_cast hm0) (zpow_ne_zero _ h2)
  set a : ℕ := m.natAbs with hadef
  have ha0 : 0 < a := Int.natAbs_pos.mpr hm0
  have haQ : (0 : ℚ) < (a : ℚ) := by exact_mod_cast ha0
  have habs : |x| = (a : ℚ) * 2 ^ k := by
    rw [hxdef, abs_mul, abs_of_pos (zpow_pos h2p k)]
    congr 1
    rw [Int.cast_natAbs]
    exact Int.cast_abs.symm
  set em : ℤ := floorLog2 (a : ℚ) with hemdef
  obtain ⟨hb1, hb2⟩ := floorLog2_bracket (a : ℚ) haQ
  have he : floorLog2 |x| = em + k := by
    apply floorLog2_unique
    · exact abs_pos.mpr hx
    · rw [habs, zpow_add₀ h2]
      exact mul_le_mul_of_nonneg_right hb1 (le_of_lt (zpow_pos h2p k))
    · rw [habs, show em + k + 1 = (em + 1) + k by ring, zpow_add₀ h2]
      exact mul_lt_mul_of_pos_right hb2 (zpow_pos h2p k)
  have haP : (a : ℚ) ≤ (2 : ℚ) ^ (p : ℤ) := by
    rw [zpow_natCast]
    exact_mod_cast hm
  have hem_le : em ≤ (p : ℤ) :=
    (zpow_le_zpow_iff_right₀ (by norm_num : (1 : ℚ) < 2)).mp (le_trans hb1 haP)
  rcases lt_or_eq_of_le hem_le with hlt | heqp
  · have ht : (0 : ℤ) ≤ (p : ℤ) - 1 - em := by omega
    have htt : ((((p : ℤ) - 1 - em).toNat : ℕ) : ℤ) = (p : ℤ) - 1 - em :=
      Int.toNat_of_nonneg ht
    refine froundP_eq_of_intScale p x hx
      ((m.natAbs : ℤ) * 2 ^ ((p : ℤ) - 1 - em).toNat) ?_
    rw [he, habs, mul_assoc, ← zpow_add₀ h2,
      show k + ((p : ℤ) - 1 - (em + k)) = (p : ℤ) - 1 - em by ring]
    push_cast
    rw [← zpow_natCast (2 : ℚ) (((p : ℤ) - 1 - em).toNat), htt]
    congr 1
    simp [hadef, Int.cast_natAbs, Int.cast_abs]
  · have ha_eq : (a : ℚ) = (2 : ℚ) ^ (p : ℤ) := le_antisymm haP (heqp ▸ hb1)
    refine froundP_eq_of_intScale p x hx (2 ^ (p - 1)) ?_
    rw [he, habs, ha_eq, heqp, mul_assoc, ← zpow_add₀ h2, ← zpow_add₀ h2,
      show (p : ℤ) + (k + ((p : ℤ) - 1 - ((p : ℤ) + k))) = (p : ℤ) - 1 by ring]
    push_cast
    rw [← zpow_natCast (2 : ℚ) (p - 1), show (((p - 1 : ℕ) : ℕ) : ℤ) = (p : ℤ) - 1 by
      omega]

theorem fround_zero : fround 0 = 0 := by simp [fround, froundP]

theorem fround_intCast (v : ℤ) (h : v.natAbs ≤ 2 ^ 53) :
    fround (v : ℚ) = v := by
  have h0 := froundP_exact 53 (by norm_num) v 0 h
  simpa [fround] using h0

theorem fround_one : fround 1 = 1 := by
  have h0 := fround_intCast 1 (by norm_num)
  simpa using h0

theorem froundP_natCast (p : Nat) (hp : 1 ≤ p) (m : Nat) (hm : m ≤ 2 ^ p) :
    froundP p (m : ℚ) = m := by
  have h0 := froundP_exact p hp (m : ℤ) 0 (by simpa using hm)
  simpa using h0

theorem froundP_natCast_mul_zpow (p : Nat) (hp : 1 ≤ p) (m : Nat) (k : ℤ)
    (hm : m ≤ 2 ^ p) :
    froundP p ((m : ℚ) * 2 ^ k) = (m : ℚ) * 2 ^ k := by
  have h0 := froundP_exact p hp (m : ℤ) k (by simpa using hm)
  simpa using h0

/-- The odd value `2^53 + 1` sits exactly halfway between the two adjacent
`float64` values `2^53` and `2^53 + 2`; the tie goes to the even significand,
i.e. to `2^53`. -/
theorem floorLog2_two_pow53_succ : floorLog2 ((2 : ℚ) ^ 53 + 1) = 53 := by
  apply floorLog2_unique _ _ (by positivity)
  · rw [show (53 : ℤ) = ((53 : ℕ) : ℤ) by norm_num, zpow_natCast]
    norm_num
  · rw [show (53 : ℤ) + 1 = ((54 : ℕ) : ℤ) by norm_num, zpow_natCast]
    norm_num

theorem floor_two_pow52_half : ⌊(2 : ℚ) ^ 52 + 1 / 2⌋ = 2 ^ 52 := by
  rw [show ((2 : ℚ) ^ 52 + 1 / 2) = 1 / 2 + ((2 ^ 52 : ℤ) : ℚ) by push_cast; ring,
    Int.floor_add_int]
  norm_num

theorem roundNE_two_pow52_half : roundNE ((2 : ℚ) ^ 52 + 1 / 2) = 2 ^ 52 := by
  unfold roundNE
  rw [floor_two_pow52_half]
  have hf : ((2 : ℚ) ^ 52 + 1 / 2) - ((2 ^ 52 : ℤ) : ℚ) = 1 / 2 := by
    push_cast
    ring
  rw [hf]
  norm_num

theorem fround_two_pow53_succ :
    fround ((2 : ℚ) ^ 53 + 1) = (2 : ℚ) ^ 53 := by
  have hx0 : ((2 : ℚ) ^ 53 + 1) ≠ 0 := by positivity
  have hxpos : (0 : ℚ) < (2 : ℚ) ^ 53 + 1 := by positivity
  unfold fround froundP
  rw [if_neg hx0, if_neg (not_lt.mpr (le_of_lt hxpos)), abs_of_pos hxpos,
    floorLog2_two_pow53_succ]
  rw [show ((53 : ℕ) : ℤ) - 1 - 53 = (-1 : ℤ) by norm_num]
  rw [show ((2 : ℚ) ^ 53 + 1) * 2 ^ (-1 : ℤ) = (2 : ℚ) ^ 52 + 1 / 2 by
    rw [zpow_neg, zpow_one]
    ring]
  rw [roundNE_two_pow52_half]
  rw [show (53 : ℤ) - (((53 : ℕ) : ℤ) - 1) = 1 by norm_num]
  push_cast
  rw [zpow_one]
  ring

/-- `Float64()` from `fastrand.go`: `float64(u64()&mask) * 0x1.0p-53` with
`mask = 1<<53 - 1`; one rounding for the conversion, one for the product. -/
def Float64 (w : Nat) : ℚ :=
  fround (fround ((u64 w &&& (2 ^ 53 - 1) : Nat) : ℚ) * 2 ^ (-53 : ℤ))

/-- `Float32()` from `fastrand.go`: `float32(u32()&mask) * 0x1.0p-24` with
`mask = 1<<24 - 1`. -/
def Float32 (w : Nat) : ℚ :=
  fround32 (fround32 ((u32 w &&& (2 ^ 24 - 1) : Nat) : ℚ) * 2 ^ (-24 : ℤ))

theorem unit_interval_of (p : Nat) (k : ℤ) (hk : k = -(p : ℤ)) (m : Nat)
    (hm : m < 2 ^ p) :
    0 ≤ (m : ℚ) * 2 ^ k ∧ (m : ℚ) * 2 ^ k < 1 := by
  subst hk
  constructor
  · positivity
  · rw [zpow_neg, ← div_eq_mul_inv, div_lt_one (by positivity), zpow_natCast]
    exact_mod_cast hm

/-- C4: both float generators compute exactly the masked word scaled by the
power of two (the two roundings are exact because the masked significand fits
the precision), so every output lies in `[0, 1)` and never equals `1`. -/
theorem float_converters_unit_interval (w : Nat) :
    Float64 w = ((u64 w &&& (2 ^ 53 - 1) : Nat) : ℚ) * 2 ^ (-53 : ℤ) ∧
    0 ≤ Float64 w ∧ Float64 w < 1 ∧ Float64 w ≠ 1 ∧
    Float32 w = ((u32 w &&& (2 ^ 24 - 1) : Nat) : ℚ) * 2 ^ (-24 : ℤ) ∧
    0 ≤ Float32 w ∧ Float32 w < 1 ∧ Float32 w ≠ 1 := by
  have hm64 : u64 w &&& (2 ^ 53 - 1) < 2 ^ 53 :=
    lt_of_le_of_lt Nat.and_le_right (by norm_num)
  have hm32 : u32 w &&& (2 ^ 24 - 1) < 2 ^ 24 :=
    lt_of_le_of_lt Nat.and_le_right (by norm_num)
  have e64 : Float64 w = ((u64 w &&& (2 ^ 53 - 1) : Nat) : ℚ) * 2 ^ (-53 : ℤ) := by
    unfold Float64 fround
    rw [froundP_natCast 53 (by norm_num) _ (le_of_lt hm64),
      froundP_natCast_mul_zpow 53 (by norm_num) _ (-53) (le_of_lt hm64)]
  have e32 : Float32 w = ((u32 w &&& (2 ^ 24 - 1) : Nat) : ℚ) * 2 ^ (-24 : ℤ) := by
    unfold Float32 fround32
    rw [froundP_natCast 24 (by norm_num) _ (le_of_lt hm32),
      froundP_natCast_mul_zpow 24 (by norm_num) _ (-24) (le_of_lt hm32)]
  obtain ⟨hlo64, hhi64⟩ := unit_interval_of 53 (-53) (by norm_num) _ hm64
  obtain ⟨hlo32, hhi32⟩ := unit_interval_of 24 (-24) (by norm_num) _ hm32
  refine ⟨e64, e64 ▸ hlo64, e64 ▸ hhi64, ?_, e32, e32 ▸ hlo32, e32 ▸ hhi32, ?_⟩
  · exact ne_of_lt (e64 ▸ hhi64)
  · exact ne_of_lt (e32 ▸ hhi32)

/-- Go's conversion of a float to an integer type: truncation toward zero. -/
def truncQ (x : ℚ) : ℤ := if 0 ≤ x then ⌊x⌋ else -⌊-x⌋

theorem truncQ_intCast (v : ℤ) : truncQ (v : ℚ) = v := by
  unfold truncQ
  by_cases h : (0 : ℚ) ≤ (v : ℚ)
  · rw [if_pos h, Int.floor_intCast]
  · rw [if_neg h, ← Int.cast_neg, Int.floor_intCast]
    ring

/-- `Jitter[int64]` from `fastrand.go`:
`T(float64(v) * (1 + (factor * (2*r - 1))))` with `r = Float64()`; every
float64 operation rounds once. -/
def Jitter (v : ℤ) (factor : ℚ) (w : Nat) : ℤ :=
  truncQ (fround (fround (v : ℚ) *
    fround (1 + fround (factor * fround (fround (2 * Float64 w) - 1)))))

/-- C9 (amended): with `factor = 0` the perturbation collapses to exactly `1`,
so `Jitter v 0 w = v` whenever `v` itself is exactly representable in
`float64`, i.e. `|v| ≤ 2^53`; for larger `|v|` the initial `float64(v)`
conversion already rounds, see `jitter_zero_counterexample`. -/
theorem jitter_zero_exact (v : ℤ) (w : Nat) (h : v.natAbs ≤ 2 ^ 53) :
    Jitter v 0 w = v := by
  unfold Jitter
  rw [zero_mul, fround_zero, add_zero, fround_one, mul_one, fround_intCast v h,
    fround_intCast v h, truncQ_intCast]

/-- Witness for the amended C9 at the spec's test point `v = 100`. -/
theorem jitter_zero_exact_witness : Jitter 100 0 7 = 100 :=
  jitter_zero_exact 100 7 (by decide)

/-- Counterexample to C9 as stated: for the `int64` value `v = 2^53 + 1`
(not representable in `float64`), `Jitter(v, 0)` returns `2^53 ≠ v`, because
`float64(v)` rounds to nearest even before the (exact) multiplication by 1. -/
theorem jitter_zero_counterexample :
    Jitter (2 ^ 53 + 1) 0 0 ≠ 2 ^ 53 + 1 := by
  have hbig : ((2 ^ 53 + 1 : ℤ) : ℚ) = (2 : ℚ) ^ 53 + 1 := by
    push_cast
    ring
  unfold Jitter
  rw [zero_mul, fround_zero, add_zero, fround_one, mul_one, hbig,
    fround_two_pow53_succ]
  have h53 : fround ((2 : ℚ) ^ 53) = (2 : ℚ) ^ 53 := by
    have h0 := fround_intCast (2 ^ 53) (by decide)
    rwa [show ((2 ^ 53 : ℤ) : ℚ) = (2 : ℚ) ^ 53 by push_cast; ring] at h0
  rw [h53, show ((2 : ℚ) ^ 53) = ((2 ^ 53 : ℤ) : ℚ) by push_cast; ring,
    truncQ_intCast]
  decide

end Fastrand
